import Mathlib

/-!
Verification of `make_manifest.py`, a single-file manifest generator:
it scans a directory for files whose name ends with a suffix, computes a
streamed SHA-256 digest, size and UTC mtime for each, and writes a JSON
manifest keyed by filename.

The embedding below translates the Python source faithfully:
  * bytes are `Nat` values below 256, machine words are `Nat` reduced
    `% 2 ^ 32` where the algorithm wraps;
  * `hashlib.sha256` is implemented in full (padding, message schedule,
    64-round compression), and a hash object's `update` is modelled by
    its semantics, byte-stream concatenation;
  * `datetime.fromtimestamp(ts, tz=timezone.utc)` is translated from
    CPython's pure-Python `datetime` (`_ord2ymd`); timestamps are
    modelled at microsecond resolution as `Int` (CPython rounds the
    float to whole microseconds before converting);
  * the filesystem is a record of the operations the script performs
    (`os.path.abspath/isdir/isfile`, `os.listdir`, `os.stat`, reading a
    file), with `os.stat` and reads allowed to fail, since an `OSError`
    from either aborts the run;
  * `json.dump` is reproduced for the two configurations the script
    uses: default separators, and `indent=2, sort_keys=True`.
-/

/-! ## Chunked byte streams (`f.read(1024 * 1024)` loop) -/

/-- Split a list into consecutive chunks of at most `n` elements (fuel
variant; fuel at least the list's length gives the true chunking).
Structural recursion on the fuel keeps it kernel-evaluable. -/
def chunksOfAux (n : Nat) : Nat → List α → List (List α)
  | _, [] => []
  | 0, l => [l]
  | fuel + 1, x :: xs => (x :: xs.take (n - 1)) :: chunksOfAux n fuel (xs.drop (n - 1))

/-- Split a list into consecutive chunks of at most `n` elements; models
the sequence of `f.read(n)` results for a file whose bytes are `l`. -/
def chunksOf (n : Nat) (l : List α) : List (List α) :=
  chunksOfAux n l.length l

theorem flatten_chunksOfAux (n : Nat) :
    ∀ (fuel : Nat) (l : List α), l.length ≤ fuel → (chunksOfAux n fuel l).flatten = l := by
  intro fuel
  induction fuel with
  | zero =>
    intro l hl
    cases l with
    | nil => simp [chunksOfAux]
    | cons x xs => simp [chunksOfAux]
  | succ f ih =>
    intro l hl
    cases l with
    | nil => simp [chunksOfAux]
    | cons x xs =>
      have hx : (xs.drop (n - 1)).length ≤ f := by
        have h1 : (xs.drop (n - 1)).length ≤ xs.length := by
          simp [List.length_drop]
        have h2 : xs.length ≤ f := Nat.le_of_succ_le_succ (by simpa using hl)
        exact Nat.le_trans h1 h2
      simp only [chunksOfAux, List.flatten]
      rw [ih _ hx]
      simp [List.take_append_drop]

/-- Reassembling the chunks gives back the byte stream. -/
theorem flatten_chunksOf (n : Nat) (l : List α) : (chunksOf n l).flatten = l :=
  flatten_chunksOfAux n l.length l (Nat.le_refl _)

/-! ## SHA-256 (`hashlib.sha256`) -/

/-- `2 ^ 32`, the modulus of SHA-256's word arithmetic. -/
def pow32 : Nat := 4294967296

/-- Rotate a 32-bit word right by `n` bits. -/
def rotr32 (n x : Nat) : Nat := ((x >>> n) ||| (x <<< (32 - n))) % pow32

/-- SHA-256 Σ₀. -/
def sigmaBig0 (x : Nat) : Nat := rotr32 2 x ^^^ rotr32 13 x ^^^ rotr32 22 x

/-- SHA-256 Σ₁. -/
def sigmaBig1 (x : Nat) : Nat := rotr32 6 x ^^^ rotr32 11 x ^^^ rotr32 25 x

/-- SHA-256 σ₀. -/
def sigmaSmall0 (x : Nat) : Nat := rotr32 7 x ^^^ rotr32 18 x ^^^ (x >>> 3)

/-- SHA-256 σ₁. -/
def sigmaSmall1 (x : Nat) : Nat := rotr32 17 x ^^^ rotr32 19 x ^^^ (x >>> 10)

/-- The 64 SHA-256 round constants. -/
def shaK : List Nat :=
  [1116352408, 1899447441, 3049323471, 3921009573, 961987163, 1508970993,
   2453635748, 2870763221, 3624381080, 310598401, 607225278, 1426881987,
   1925078388, 2162078206, 2614888103, 3248222580, 3835390401, 4022224774,
   264347078, 604807628, 770255983, 1249150122, 1555081692, 1996064986,
   2554220882, 2821834349, 2952996808, 3210313671, 3336571891, 3584528711,
   113926993, 338241895, 666307205, 773529912, 1294757372, 1396182291,
   1695183700, 1986661051, 2177026350, 2456956037, 2730485921, 2820302411,
   3259730800, 3345764771, 3516065817, 3600352804, 4094571909, 275423344,
   430227734, 506948616, 659060556, 883997877, 958139571, 1322822218,
   1537002063, 1747873779, 1955562222, 2024104815, 2227730452, 2361852424,
   2428436474, 2756734187, 3204031479, 3329325298]

/-- The SHA-256 initial hash value. -/
def shaH0 : List Nat :=
  [1779033703, 3144134277, 1013904242, 2773480762,
   1359893119, 2600822924, 528734635, 1541459225]

/-- Big-endian 32-bit word from a list of (at most 4) bytes. -/
def wordOfBytes (l : List Nat) : Nat := l.foldl (fun a b => a * 256 + b) 0

/-- Extend the 16 message words (given reversed, latest first) by `fuel`
rounds of the SHA-256 message schedule; returns the full schedule in
order. -/
def extendW : Nat → List Nat → List Nat
  | 0, racc => racc.reverse
  | fuel + 1, racc =>
    let w := (racc.getD 15 0 + sigmaSmall0 (racc.getD 14 0) + racc.getD 6 0 + sigmaSmall1 (racc.getD 1 0)) % pow32
    extendW fuel (w :: racc)

/-- One SHA-256 compression round: state `[a,b,c,d,e,f,g,h]`, round input
`(kᵢ, wᵢ)`. -/
def shaRound (st : List Nat) (kw : Nat × Nat) : List Nat :=
  let a := st.getD 0 0
  let b := st.getD 1 0
  let c := st.getD 2 0
  let d := st.getD 3 0
  let e := st.getD 4 0
  let f := st.getD 5 0
  let g := st.getD 6 0
  let h := st.getD 7 0
  let ch := (e &&& f) ^^^ ((4294967295 ^^^ e) &&& g)
  let t1 := (h + sigmaBig1 e + ch + kw.1 + kw.2) % pow32
  let maj := (a &&& b) ^^^ (a &&& c) ^^^ (b &&& c)
  let t2 := (sigmaBig0 a + maj) % pow32
  [(t1 + t2) % pow32, a, b, c, (d + t1) % pow32, e, f, g]

/-- Process one 64-byte block into the running hash value. -/
def processBlock (hs : List Nat) (block : List Nat) : List Nat :=
  let w0 := (chunksOf 4 block).map wordOfBytes
  let ws := extendW 48 w0.reverse
  let fin := (shaK.zip ws).foldl shaRound hs
  List.zipWith (fun x y => (x + y) % pow32) hs fin

/-- The 8-byte big-endian encoding of `n` (the padded bit length). -/
def lenBE8 (n : Nat) : List Nat :=
  [(n >>> 56) % 256, (n >>> 48) % 256, (n >>> 40) % 256, (n >>> 32) % 256,
   (n >>> 24) % 256, (n >>> 16) % 256, (n >>> 8) % 256, n % 256]

/-- SHA-256 padding: `0x80`, zeros to 56 mod 64, then the bit length. -/
def padMsg (msg : List Nat) : List Nat :=
  msg ++ 128 :: List.replicate ((119 - msg.length % 64) % 64) 0 ++ lenBE8 (8 * msg.length)

/-- The eight 32-bit words of the SHA-256 digest of a byte stream. -/
def sha256words (msg : List Nat) : List Nat :=
  (chunksOf 64 (padMsg msg)).foldl processBlock shaH0

/-- Lowercase hexadecimal digit for `k < 16`. -/
def hexDigitChar (k : Nat) : Char :=
  if k < 10 then Char.ofNat (48 + k) else Char.ofNat (87 + k)

/-- The eight lowercase hex characters of a 32-bit word. -/
def wordHexChars (w : Nat) : List Char :=
  [hexDigitChar ((w >>> 28) % 16), hexDigitChar ((w >>> 24) % 16),
   hexDigitChar ((w >>> 20) % 16), hexDigitChar ((w >>> 16) % 16),
   hexDigitChar ((w >>> 12) % 16), hexDigitChar ((w >>> 8) % 16),
   hexDigitChar ((w >>> 4) % 16), hexDigitChar (w % 16)]

/-- `hashlib.sha256(msg).hexdigest()` as a character list. -/
def sha256hexChars (msg : List Nat) : List Char :=
  ((sha256words msg).map wordHexChars).flatten

/-- `hashlib.sha256(msg).hexdigest()`: the lowercase hex SHA-256 digest. -/
def sha256hexStr (msg : List Nat) : String :=
  ⟨sha256hexChars msg⟩

/-- `h.update(chunk)`: a hash object's state is the byte stream absorbed
so far, and `update` appends to it. -/
def hashlibUpdate (state chunk : List Nat) : List Nat := state ++ chunk

/-- `sha256_file` (source lines 21-26): feed the file's bytes to a fresh
hash object in 1 MiB chunks, then take the hex digest. -/
def sha256_file (content : List Nat) : String :=
  ⟨sha256hexChars ((chunksOf (1024 * 1024) content).foldl hashlibUpdate [])⟩

theorem foldl_hashlibUpdate (l : List (List Nat)) :
    ∀ acc, l.foldl hashlibUpdate acc = acc ++ l.flatten := by
  induction l with
  | nil => intro acc; simp [List.flatten]
  | cons x xs ih => intro acc; simp [List.foldl, hashlibUpdate, ih, List.flatten, List.append_assoc]

/-- Streaming the file through the hash in fixed-size chunks digests
exactly the file's full byte content. -/
theorem sha256_file_eq_whole (content : List Nat) :
    sha256_file content = sha256hexStr content := by
  unfold sha256_file sha256hexStr
  rw [foldl_hashlibUpdate, flatten_chunksOf]
  rfl

set_option maxRecDepth 4000 in
/-- Known test vector: the SHA-256 of the ASCII bytes of "test". -/
theorem sha256_test_vector :
    sha256hexStr [116, 101, 115, 116] =
      "9f86d081884c7d659a2feaa0c55ad015a3bf4f1b2b0b822cd15d6c15b0f00a08" := by
  decide

/-! ## UTC timestamps (`iso8601_utc`, source lines 18-19)

`datetime.fromtimestamp(ts, tz=timezone.utc)` is translated from
CPython's pure-Python datetime implementation: the timestamp is split
into whole seconds (floor) and microseconds, the day count is converted
to a calendar date by `_ord2ymd`, and `isoformat()` renders the fields
zero-padded with the UTC offset "+00:00", which the script then
replaces with "Z". `datetime` only represents years 1..9999
(`fromtimestamp` raises outside that range), so the fixed-width year
rendering below is exact on `datetime`'s domain. -/

/-- CPython `datetime._DAYS_IN_MONTH` (index 0 unused, holds -1). -/
def daysInMonth : List Int := [-1, 31, 28, 31, 30, 31, 30, 31, 31, 30, 31, 30, 31]

/-- CPython `datetime._DAYS_BEFORE_MONTH` (index 0 unused, holds -1). -/
def daysBeforeMonth : List Int := [-1, 0, 31, 59, 90, 120, 151, 181, 212, 243, 273, 304, 334]

/-- CPython `datetime._ord2ymd`: proleptic Gregorian date (year, month,
day) of an ordinal day number (day 1 = 0001-01-01). Python's `divmod`
on a positive divisor is floor division with a nonnegative remainder,
i.e. `Int.fdiv` / `Int.emod`; `>> 5` on a nonnegative int is division
by 32. -/
def ord2ymd (nOrd : Int) : Int × Int × Int :=
  let n0 := nOrd - 1
  let n400 := n0.fdiv 146097
  let r400 := n0.emod 146097
  let n100 := r400.fdiv 36524
  let r100 := r400.emod 36524
  let n4 := r100.fdiv 1461
  let r4 := r100.emod 1461
  let n1 := r4.fdiv 365
  let n := r4.emod 365
  let year := n400 * 400 + 1 + n100 * 100 + n4 * 4 + n1
  if n1 = 4 ∨ n100 = 4 then
    (year - 1, 12, 31)
  else
    let leapyear : Bool := n1 = 3 && (n4 ≠ 24 || n100 = 3)
    let month := (n + 50).fdiv 32
    let preceding := daysBeforeMonth.getD month.toNat 0 + (if 2 < month ∧ leapyear = true then 1 else 0)
    if n < preceding then
      let month' := month - 1
      let preceding' := preceding - (daysInMonth.getD month'.toNat 0 + (if month' = 2 ∧ leapyear = true then 1 else 0))
      (year, month', n - preceding' + 1)
    else
      (year, month, n - preceding + 1)

/-- A CPython `datetime` value (always `tzinfo=timezone.utc` here). -/
structure PyDatetime where
  year : Int
  month : Int
  day : Int
  hour : Nat
  minute : Nat
  second : Nat
  microsecond : Nat
deriving DecidableEq

/-- `date(1970, 1, 1).toordinal()`. -/
def epochOrdinal : Int := 719163

/-- `datetime.fromtimestamp(ts, tz=timezone.utc)` for a timestamp of
`us` microseconds since the epoch (CPython first rounds the float
timestamp to whole microseconds; the split into seconds and
microseconds floors, as `divmod` does). -/
def fromtimestampUTC (us : Int) : PyDatetime :=
  let t := us.fdiv 1000000
  let micro := (us.emod 1000000).toNat
  let days := t.fdiv 86400
  let sod := (t.emod 86400).toNat
  let ymd := ord2ymd (days + epochOrdinal)
  { year := ymd.1, month := ymd.2.1, day := ymd.2.2,
    hour := sod / 3600, minute := sod / 60 % 60, second := sod % 60,
    microsecond := micro }

/-- `.replace(microsecond=0)`. -/
def replaceMicrosecond0 (d : PyDatetime) : PyDatetime := { d with microsecond := 0 }

/-- The decimal digit character for `k % 10`. -/
def decDigitChar (k : Nat) : Char := Char.ofNat (48 + k % 10)

/-- `"%02d" % n` for `n ≤ 99` (all fields rendered with it are). -/
def pad2 (n : Nat) : List Char := [decDigitChar (n / 10), decDigitChar n]

/-- `"%04d" % n` for `n ≤ 9999` (`datetime` years always are). -/
def pad4 (n : Nat) : List Char :=
  [decDigitChar (n / 1000), decDigitChar (n / 100), decDigitChar (n / 10), decDigitChar n]

/-- `"%06d" % n` for `n ≤ 999999` (microseconds always are). -/
def pad6 (n : Nat) : List Char :=
  [decDigitChar (n / 100000), decDigitChar (n / 10000), decDigitChar (n / 1000),
   decDigitChar (n / 100), decDigitChar (n / 10), decDigitChar n]

/-- The date-time body of `datetime.isoformat()`:
`YYYY-MM-DDTHH:MM:SS`. -/
def isoBasicChars (d : PyDatetime) : List Char :=
  pad4 d.year.toNat ++ '-' :: pad2 d.month.toNat ++ '-' :: pad2 d.day.toNat ++
    'T' :: pad2 d.hour ++ ':' :: pad2 d.minute ++ ':' :: pad2 d.second

/-- The rendered UTC offset of `timezone.utc`: `+00:00`. -/
def plusOffsetChars : List Char := ['+', '0', '0', ':', '0', '0']

/-- `datetime.isoformat()` for an aware UTC datetime:
`YYYY-MM-DDTHH:MM:SS[.ffffff]+00:00`. -/
def isoformatChars (d : PyDatetime) : List Char :=
  isoBasicChars d ++
    (if d.microsecond = 0 then [] else '.' :: pad6 d.microsecond) ++
    plusOffsetChars

/-- Python `str.replace`: replace every (leftmost, non-overlapping)
occurrence of `pat` by `rep`; fuel variant, structural on the fuel.
Faithful for the non-empty `pat` used here. -/
def listReplaceAux (pat rep : List Char) : Nat → List Char → List Char
  | _, [] => []
  | 0, l => l
  | fuel + 1, c :: cs =>
    if pat.isPrefixOf (c :: cs) then rep ++ listReplaceAux pat rep fuel (cs.drop (pat.length - 1))
    else c :: listReplaceAux pat rep fuel cs

/-- Python `s.replace(pat, rep)` on character lists. -/
def listReplace (pat rep l : List Char) : List Char :=
  listReplaceAux pat rep l.length l

/-- `iso8601_utc` (source lines 18-19) as a character list:
`datetime.fromtimestamp(ts, tz=timezone.utc).replace(microsecond=0)
.isoformat().replace("+00:00", "Z")` for a timestamp of `us`
microseconds. -/
def iso8601utcChars (us : Int) : List Char :=
  listReplace plusOffsetChars ['Z']
    (isoformatChars (replaceMicrosecond0 (fromtimestampUTC us)))

/-- `iso8601_utc` (source lines 18-19). -/
def iso8601_utc (us : Int) : String :=
  ⟨iso8601utcChars us⟩

/-! ## String comparison (Python `sorted` on filenames)

Python compares strings lexicographically by code point. Mathlib's
`String` linear order is the same comparison, but its `Decidable`
instances are not kernel-reducible, so a structural decision procedure
is defined here and proved equivalent; the sorts below use it. -/

/-- Lexicographic `≤` by code point on character lists (Python's string
comparison). -/
def lexLeChars : List Char → List Char → Bool
  | [], _ => true
  | _ :: _, [] => false
  | c :: cs, d :: ds => if c = d then lexLeChars cs ds else decide (c < d)

theorem lexLeChars_iff_not_lex :
    ∀ a b : List Char, lexLeChars a b = true ↔ ¬ List.Lex (· < ·) b a := by
  intro a
  induction a with
  | nil =>
    intro b
    simp only [lexLeChars, true_iff]
    exact List.Lex.not_nil_right _ _
  | cons c cs ih =>
    intro b
    cases b with
    | nil =>
      simp only [lexLeChars]
      constructor
      · intro h; cases h
      · intro h; exact absurd List.Lex.nil h
    | cons d ds =>
      by_cases hcd : c = d
      · subst hcd
        simpa only [lexLeChars, if_pos rfl, List.Lex.cons_iff] using ih ds
      · simp only [lexLeChars, if_neg hcd, decide_eq_true_eq]
        constructor
        · intro hlt hlex
          cases hlex with
          | rel h => exact absurd hlt (asymm h)
          | cons h => exact hcd rfl
        · intro h
          rcases lt_trichotomy c d with h1 | h1 | h1
          · exact h1
          · exact absurd h1 hcd
          · exact absurd (List.Lex.rel h1) h

/-- The structural comparison decides Mathlib's `String` order. -/
theorem strLeb_iff (a b : String) : lexLeChars a.data b.data = true ↔ a ≤ b := by
  rw [String.le_iff_toList_le, ← not_lt]
  exact lexLeChars_iff_not_lex a.data b.data

/-- A kernel-reducible decision procedure for `String` `≤`. -/
def decStrLE : DecidableRel (α := String) (· ≤ ·) := fun a b =>
  decidable_of_iff (lexLeChars a.data b.data = true) (strLeb_iff a b)

/-! ## JSON serialization (`json.dump`, source lines 65-68)

The script serializes a dict of dicts whose leaves are strings and a
nonnegative int. `json.dump` without arguments uses the default
separators `", "` and `": "` and the dict's insertion order;
`indent=2, sort_keys=True` breaks items over lines indented by 2 per
level and sorts every dict's keys. Strings are escaped with
`ensure_ascii=True` (the default). -/

/-- Four lowercase hex digits of `n < 65536` (`"%04x"`, as in Python's
`\uXXXX` escapes). -/
def uhex4 (n : Nat) : List Char :=
  [hexDigitChar (n / 4096 % 16), hexDigitChar (n / 256 % 16),
   hexDigitChar (n / 16 % 16), hexDigitChar (n % 16)]

/-- `json` string escaping with `ensure_ascii=True`: printable ASCII
other than `"` and `\` is kept; everything else is escaped (short
escapes for the usual control characters, `\uXXXX` otherwise, surrogate
pairs beyond the BMP). -/
def jsonEscapeChar (c : Char) : List Char :=
  let n := c.toNat
  if n = 34 then ['\\', '"']
  else if n = 92 then ['\\', '\\']
  else if 32 ≤ n ∧ n ≤ 126 then [c]
  else if n = 8 then ['\\', 'b']
  else if n = 9 then ['\\', 't']
  else if n = 10 then ['\\', 'n']
  else if n = 12 then ['\\', 'f']
  else if n = 13 then ['\\', 'r']
  else if n < 65536 then '\\' :: 'u' :: uhex4 n
  else ('\\' :: 'u' :: uhex4 (55296 + (n - 65536) / 1024)) ++
       ('\\' :: 'u' :: uhex4 (56320 + (n - 65536) % 1024))

/-- A JSON string literal (quotes included) for `s`. -/
def jsonStrChars (s : String) : List Char :=
  '"' :: (s.data.map jsonEscapeChar).flatten ++ ['"']

/-- One manifest entry (source lines 58-63). -/
structure Entry where
  version : String
  size : Nat
  mtime : String
  sha256 : String
deriving DecidableEq

/-- The entry's fields as (key, serialized value) pairs, in the
insertion order of the dict literal at source lines 58-63. -/
def entryPairs (e : Entry) : List (String × List Char) :=
  [("version", jsonStrChars e.version),
   ("size", (toString e.size).data),
   ("mtime", jsonStrChars e.mtime),
   ("sha256", jsonStrChars e.sha256)]

/-- Serialize a dict given its (key, serialized value) pairs in order:
`openCs`, the items joined by `itemSep` with `keySep` after each key,
then `closePre` and the closing brace. `json.dump` writes an empty dict
as the two braces in every mode. -/
def serDictChars (openCs closePre keySep itemSep : List Char)
    (pairs : List (String × List Char)) : List Char :=
  if pairs.isEmpty then ['\x7b', '\x7d']
  else
    openCs ++
      (List.intercalate itemSep (pairs.map fun p => jsonStrChars p.1 ++ keySep ++ p.2)) ++
      closePre ++ ['\x7d']

/-- `sorted(d.items())`: dict items sorted by key (keys are unique, so
comparison never reaches the values). -/
def sortPairs (pairs : List (String × List Char)) : List (String × List Char) :=
  @List.insertionSort _ (fun a b => a.1 ≤ b.1) (fun a b => decStrLE a.1 b.1) pairs

/-- A manifest entry as `json.dump` writes it with default separators. -/
def serEntryCompactChars (e : Entry) : List Char :=
  serDictChars ['\x7b'] [] [':', ' '] [',', ' '] (entryPairs e)

/-- A manifest entry as `json.dump(..., indent=2, sort_keys=True)`
writes it at nesting depth 1: keys sorted, items on lines indented by
4, the closing brace indented by 2. -/
def serEntryPrettyChars (e : Entry) : List Char :=
  serDictChars ('\x7b' :: '\n' :: [' ', ' ', ' ', ' '])
    ('\n' :: [' ', ' '])
    [':', ' ']
    (',' :: '\n' :: [' ', ' ', ' ', ' '])
    (sortPairs (entryPairs e))

/-- The whole manifest as `json.dump` writes it (source line 65-67):
pretty mode sorts keys and indents by 2, default mode keeps insertion
order with separators `", "` and `": "`. -/
def serManifestChars (m : List (String × Entry)) (pretty : Bool) : List Char :=
  if pretty then
    serDictChars ('\x7b' :: '\n' :: [' ', ' ']) ('\n' :: []) [':', ' ']
      (',' :: '\n' :: [' ', ' '])
      (sortPairs (m.map fun p => (p.1, serEntryPrettyChars p.2)))
  else
    serDictChars ['\x7b'] [] [':', ' '] [',', ' ']
      (m.map fun p => (p.1, serEntryCompactChars p.2))

/-- The bytes written to the output file (source lines 66-68): the
serialized manifest followed by one newline from `f.write("\n")`. -/
def outputTextChars (m : List (String × Entry)) (pretty : Bool) : List Char :=
  serManifestChars m pretty ++ ['\n']

/-- The output file's content as a string. -/
def outputText (m : List (String × Entry)) (pretty : Bool) : String :=
  ⟨outputTextChars m pretty⟩

/-- The serialized manifest as a string. -/
def serManifest (m : List (String × Entry)) (pretty : Bool) : String :=
  ⟨serManifestChars m pretty⟩

/-- Follows the spec's words, for comparison with `serManifestChars`:
"the most compact valid serialization" of the mapping, i.e. JSON with
separators `","` and `":"` and no whitespace at all. -/
def specMostCompactChars (m : List (String × Entry)) : List Char :=
  serDictChars ['\x7b'] [] [':'] [',']
    (m.map fun p => (p.1, serDictChars ['\x7b'] [] [':'] [','] (entryPairs p.2)))

/-! ## The filesystem model and `main` (source lines 28-70) -/

/-- The fields of `os.stat` the script reads. `st_mtime` is a float of
seconds; it is modelled at microsecond resolution (CPython rounds the
float to whole microseconds before calendar conversion). -/
structure FileStat where
  st_size : Nat
  st_mtime_us : Int
deriving DecidableEq

/-- The filesystem operations the script performs. `stat` and `read`
may fail (an `OSError` carrying a message), which the script does not
catch; `os.path.isdir`/`os.path.isfile` return `False` instead of
raising, and `os.listdir` is only reached after the `isdir` check. -/
structure FS where
  abspath : String → String
  isdir : String → Bool
  listdir : String → List String
  isfile : String → Bool
  stat : String → Except String FileStat
  read : String → Except String (List Nat)

/-- `os.path.join(a, b)` (POSIX) for the shapes the script uses: `b`
never empty; an absolute `b` replaces `a`. -/
def joinPath (a b : String) : String :=
  if b.data.take 1 = ['/'] then b
  else if a = "" then b
  else if a.data.getLast? = some '/' then a ++ b
  else a ++ "/" ++ b

/-- `name.endswith(args.pattern)` (source line 45): a literal,
case-sensitive suffix test. -/
def pyEndsWith (s suffix : String) : Bool :=
  suffix.data.isSuffixOf s.data

/-- `manifest[name] = entry` on a dict modelled as an association list
in insertion order: a present key keeps its position and gets the new
value, a new key goes to the end. -/
def dictInsert (k : String) (v : Entry) : List (String × Entry) → List (String × Entry)
  | [] => [(k, v)]
  | (k', v') :: rest => if k' = k then (k', v) :: rest else (k', v') :: dictInsert k v rest

/-- The manifest entry built for one file (source lines 50-63):
`version` and `sha256` are the same streamed digest, `size` comes from
`os.stat`, `mtime` is `iso8601_utc(st.st_mtime)`. -/
def mkEntry (st : FileStat) (content : List Nat) : Entry :=
  let digest := sha256_file content
  { version := digest, size := st.st_size, mtime := iso8601_utc st.st_mtime_us, sha256 := digest }

/-- The scan loop (source lines 43-63) over the listed `names`: skip a
name unless it ends with the suffix and is a regular file, otherwise
stat it, hash it and insert the entry. An `OSError` from `stat` or
`read` propagates and aborts the loop. -/
def buildManifest (fs : FS) (baseDir pattern : String) :
    List String → List (String × Entry) → Except String (List (String × Entry))
  | [], acc => .ok acc
  | name :: rest, acc =>
    if pyEndsWith name pattern then
      let fullPath := joinPath baseDir name
      if fs.isfile fullPath then
        match fs.stat fullPath with
        | .error e => .error e
        | .ok st =>
          match fs.read fullPath with
          | .error e => .error e
          | .ok content => buildManifest fs baseDir pattern rest (dictInsert name (mkEntry st content) acc)
      else buildManifest fs baseDir pattern rest acc
    else buildManifest fs baseDir pattern rest acc

/-- `sorted(os.listdir(base_dir))` (source line 44). Python's `sorted`
is the unique ascending reordering here, since equal strings are
identical; `List.insertionSort` computes it. -/
def sortedListing (fs : FS) (baseDir : String) : List String :=
  @List.insertionSort String (fun a b => a ≤ b) (fun a b => decStrLE a b) (fs.listdir baseDir)

/-- The manifest the scan produces for a directory. -/
def runManifest (fs : FS) (baseDir pattern : String) : Except String (List (String × Entry)) :=
  buildManifest fs baseDir pattern (sortedListing fs baseDir) []

/-- The key list of the produced manifest (empty if the scan aborted). -/
def keysOfRun (fs : FS) (baseDir pattern : String) : List String :=
  match runManifest fs baseDir pattern with
  | .ok m => m.map Prod.fst
  | .error _ => []

/-- `out_path = args.out or os.path.join(base_dir, "packs_manifest.json")`
(source line 41): `None` and the empty string are both falsy, so either
falls back to the default path under the absolute source directory. -/
def resolveOut (baseDir : String) (outArg : Option String) : String :=
  match outArg with
  | none => joinPath baseDir "packs_manifest.json"
  | some s => if s = "" then joinPath baseDir "packs_manifest.json" else s

/-- What a run of the process did: its exit status, the lines printed
to stderr and stdout, and the files it wrote (path, full content). -/
structure RunResult where
  exitCode : Nat
  errLines : List String
  outLines : List String
  writes : List (String × String)
deriving DecidableEq

/-- `main()` (source lines 28-70) for parsed arguments: resolve the
directory, bail out with status 1 if it is not a directory, scan it,
and either propagate an uncaught `OSError` (CPython exits with status 1
and a traceback on stderr) or write the serialized manifest followed by
a newline and report success. -/
def runMain (fs : FS) (dirArg : String) (outArg : Option String)
    (pattern : String) (pretty : Bool) : RunResult :=
  let baseDir := fs.abspath dirArg
  if fs.isdir baseDir = false then
    { exitCode := 1, errLines := ["[ERR] Not a directory: " ++ baseDir],
      outLines := [], writes := [] }
  else
    let outPath := resolveOut baseDir outArg
    match runManifest fs baseDir pattern with
    | .error e =>
      { exitCode := 1, errLines := [e], outLines := [], writes := [] }
    | .ok manifest =>
      { exitCode := 0, errLines := [],
        outLines := ["[OK] Wrote " ++ outPath ++ " with " ++ toString manifest.length ++ " entries."],
        writes := [(outPath, outputText manifest pretty)] }

/-- `Except.isOk`. -/
def exceptOk : Except ε α → Bool
  | .ok _ => true
  | .error _ => false

/-! ## Lemmas about the scan loop -/

/-- The inclusion test of the scan loop (source lines 45-49): the name
ends with the suffix and denotes a regular file. -/
def scanCond (fs : FS) (base pat n : String) : Bool :=
  pyEndsWith n pat && fs.isfile (joinPath base n)

theorem dictInsert_keys (k : String) (v : Entry) (l : List (String × Entry)) :
    (dictInsert k v l).map Prod.fst =
      l.map Prod.fst ++ (if k ∈ l.map Prod.fst then [] else [k]) := by
  induction l with
  | nil => simp [dictInsert]
  | cons p rest ih =>
    obtain ⟨p1, p2⟩ := p
    by_cases h : p1 = k
    · subst h
      simp [dictInsert]
    · simp only [dictInsert, if_neg h, List.map_cons, ih, List.mem_cons]
      have hnk : ¬ k = p1 := fun hk => h hk.symm
      simp only [eq_false hnk, false_or, List.cons_append]

theorem dictInsert_keys_of_fresh (k : String) (v : Entry) (l : List (String × Entry))
    (h : k ∉ l.map Prod.fst) :
    (dictInsert k v l).map Prod.fst = l.map Prod.fst ++ [k] := by
  rw [dictInsert_keys, if_neg h]

theorem mem_dictInsert (p : String × Entry) (k : String) (v : Entry) :
    ∀ l : List (String × Entry), p ∈ dictInsert k v l → p = (k, v) ∨ p ∈ l := by
  intro l
  induction l with
  | nil =>
    intro h
    simpa [dictInsert] using h
  | cons q rest ih =>
    obtain ⟨q1, q2⟩ := q
    intro h
    by_cases hq : q1 = k
    · simp only [dictInsert, if_pos hq] at h
      rcases List.mem_cons.mp h with h | h
      · left; rw [h, hq]
      · right; exact List.mem_cons_of_mem _ h
    · simp only [dictInsert, if_neg hq] at h
      rcases List.mem_cons.mp h with h | h
      · right; rw [h]; exact List.mem_cons_self _ _
      · rcases ih h with h' | h'
        · left; exact h'
        · right; exact List.mem_cons_of_mem _ h'

theorem exceptOk_exists {x : Except String α} (h : exceptOk x = true) : ∃ v, x = .ok v := by
  cases x with
  | ok v => exact ⟨v, rfl⟩
  | error e => simp [exceptOk] at h

/-- If every candidate (suffix match and regular file) can be statted
and read, the scan completes and appends exactly the candidates, in
order, to the accumulated keys. -/
theorem buildManifest_ok_keys (fs : FS) (base pat : String) :
    ∀ (names : List String) (acc : List (String × Entry)),
      (∀ n ∈ names, pyEndsWith n pat = true → fs.isfile (joinPath base n) = true →
        exceptOk (fs.stat (joinPath base n)) = true ∧ exceptOk (fs.read (joinPath base n)) = true) →
      (∀ n ∈ names, n ∉ acc.map Prod.fst) →
      names.Nodup →
      ∃ m, buildManifest fs base pat names acc = .ok m ∧
        m.map Prod.fst = acc.map Prod.fst ++ names.filter (scanCond fs base pat) := by
  intro names
  induction names with
  | nil =>
    intro acc _ _ _
    exact ⟨acc, rfl, by simp⟩
  | cons name rest ih =>
    intro acc hok hfresh hnd
    have hndrest : rest.Nodup := (List.nodup_cons.mp hnd).2
    have hnamemem : name ∉ rest := (List.nodup_cons.mp hnd).1
    by_cases hsuf : pyEndsWith name pat = true
    · by_cases hreg : fs.isfile (joinPath base name) = true
      · obtain ⟨hst, hrd⟩ := hok name (List.mem_cons_self _ _) hsuf hreg
        obtain ⟨st, hst'⟩ := exceptOk_exists hst
        obtain ⟨content, hrd'⟩ := exceptOk_exists hrd
        have hfresh' : ∀ n ∈ rest, n ∉ (dictInsert name (mkEntry st content) acc).map Prod.fst := by
          intro n hn
          rw [dictInsert_keys_of_fresh _ _ _ (hfresh name (List.mem_cons_self _ _))]
          intro hmem
          rcases List.mem_append.mp hmem with h | h
          · exact hfresh n (List.mem_cons_of_mem _ hn) h
          · rcases List.mem_singleton.mp h with h
            exact hnamemem (h ▸ hn)
        obtain ⟨m, hm, hkeys⟩ := ih (dictInsert name (mkEntry st content) acc)
          (fun n hn h1 h2 => hok n (List.mem_cons_of_mem _ hn) h1 h2) hfresh' hndrest
        refine ⟨m, ?_, ?_⟩
        · simp only [buildManifest, if_pos hsuf, if_pos hreg, hst', hrd']
          exact hm
        · rw [hkeys, dictInsert_keys_of_fresh _ _ _ (hfresh name (List.mem_cons_self _ _))]
          have : scanCond fs base pat name = true := by
            simp [scanCond, hsuf, hreg]
          simp [List.filter, this, List.append_assoc]
      · obtain ⟨m, hm, hkeys⟩ := ih acc
          (fun n hn h1 h2 => hok n (List.mem_cons_of_mem _ hn) h1 h2)
          (fun n hn => hfresh n (List.mem_cons_of_mem _ hn)) hndrest
        refine ⟨m, ?_, ?_⟩
        · simp only [buildManifest, if_pos hsuf, if_neg hreg]
          exact hm
        · rw [hkeys]
          have : scanCond fs base pat name = false := by
            simp only [scanCond, Bool.and_eq_false_iff]
            right
            exact Bool.not_eq_true _ ▸ hreg
          simp [List.filter, this]
    · obtain ⟨m, hm, hkeys⟩ := ih acc
        (fun n hn h1 h2 => hok n (List.mem_cons_of_mem _ hn) h1 h2)
        (fun n hn => hfresh n (List.mem_cons_of_mem _ hn)) hndrest
      refine ⟨m, ?_, ?_⟩
      · simp only [buildManifest, if_neg hsuf]
        exact hm
      · rw [hkeys]
        have : scanCond fs base pat name = false := by
          simp only [scanCond, Bool.and_eq_false_iff]
          left
          exact Bool.not_eq_true _ ▸ hsuf
        simp [List.filter, this]

/-- Keys accumulate in scan order: scanning sorted names over an
accumulator whose keys are sorted and bounded by the remaining names
yields sorted keys. -/
theorem buildManifest_sorted (fs : FS) (base pat : String) :
    ∀ (names : List String) (acc m : List (String × Entry)),
      List.Sorted (· ≤ ·) names →
      List.Sorted (· ≤ ·) (acc.map Prod.fst) →
      (∀ k ∈ acc.map Prod.fst, ∀ n ∈ names, k ≤ n) →
      buildManifest fs base pat names acc = .ok m →
      List.Sorted (· ≤ ·) (m.map Prod.fst) := by
  intro names
  induction names with
  | nil =>
    intro acc m _ hacc _ hm
    simp only [buildManifest, Except.ok.injEq] at hm
    subst hm
    exact hacc
  | cons name rest ih =>
    intro acc m hnames hacc hbound hm
    have hnr : List.Sorted (· ≤ ·) rest := (List.sorted_cons.mp hnames).2
    have hhead : ∀ n ∈ rest, name ≤ n := (List.sorted_cons.mp hnames).1
    by_cases hsuf : pyEndsWith name pat = true
    · by_cases hreg : fs.isfile (joinPath base name) = true
      · simp only [buildManifest, if_pos hsuf, if_pos hreg] at hm
        cases hst : fs.stat (joinPath base name) with
        | error e => rw [hst] at hm; simp at hm
        | ok st =>
          rw [hst] at hm
          cases hrd : fs.read (joinPath base name) with
          | error e => rw [hrd] at hm; simp at hm
          | ok content =>
            rw [hrd] at hm
            refine ih (dictInsert name (mkEntry st content) acc) m hnr ?_ ?_ hm
            · rw [dictInsert_keys]
              by_cases hmem : name ∈ acc.map Prod.fst
              · simpa [if_pos hmem] using hacc
              · rw [if_neg hmem]
                rw [List.Sorted, List.pairwise_append]
                refine ⟨hacc, List.pairwise_singleton _ _, ?_⟩
                intro a ha b hb
                rw [List.mem_singleton.mp hb]
                exact hbound a ha name (List.mem_cons_self _ _)
            · intro k hk n hn
              rw [dictInsert_keys] at hk
              rcases List.mem_append.mp hk with hk | hk
              · exact hbound k hk n (List.mem_cons_of_mem _ hn)
              · by_cases hmem : name ∈ acc.map Prod.fst
                · rw [if_pos hmem] at hk; cases hk
                · rw [if_neg hmem] at hk
                  rw [List.mem_singleton.mp hk]
                  exact hhead n hn
      · simp only [buildManifest, if_pos hsuf, if_neg hreg] at hm
        exact ih acc m hnr hacc
          (fun k hk n hn => hbound k hk n (List.mem_cons_of_mem _ hn)) hm
    · simp only [buildManifest, if_neg hsuf] at hm
      exact ih acc m hnr hacc
        (fun k hk n hn => hbound k hk n (List.mem_cons_of_mem _ hn)) hm

/-- Every entry of a completed scan that is not inherited from the
accumulator records exactly a successful stat and read of its file,
packaged by `mkEntry`. -/
theorem buildManifest_origin (fs : FS) (base pat : String) :
    ∀ (names : List String) (acc m : List (String × Entry)),
      buildManifest fs base pat names acc = .ok m →
      ∀ p ∈ m, p ∈ acc ∨
        ∃ st content, fs.stat (joinPath base p.1) = .ok st ∧
          fs.read (joinPath base p.1) = .ok content ∧ p.2 = mkEntry st content := by
  intro names
  induction names with
  | nil =>
    intro acc m hm p hp
    simp only [buildManifest, Except.ok.injEq] at hm
    subst hm
    exact Or.inl hp
  | cons name rest ih =>
    intro acc m hm p hp
    by_cases hsuf : pyEndsWith name pat = true
    · by_cases hreg : fs.isfile (joinPath base name) = true
      · simp only [buildManifest, if_pos hsuf, if_pos hreg] at hm
        cases hst : fs.stat (joinPath base name) with
        | error e => rw [hst] at hm; simp at hm
        | ok st =>
          rw [hst] at hm
          cases hrd : fs.read (joinPath base name) with
          | error e => rw [hrd] at hm; simp at hm
          | ok content =>
            rw [hrd] at hm
            rcases ih _ _ hm p hp with hin | hgood
            · rcases mem_dictInsert p name (mkEntry st content) acc hin with heq | hacc'
              · right
                refine ⟨st, content, ?_, ?_, ?_⟩ <;> rw [heq] <;> simpa
              · exact Or.inl hacc'
            · exact Or.inr hgood
      · simp only [buildManifest, if_pos hsuf, if_neg hreg] at hm
        exact ih _ _ hm p hp
    · simp only [buildManifest, if_neg hsuf] at hm
      exact ih _ _ hm p hp

/-- If any candidate's stat or read fails, the whole scan fails (the
first such failure aborts it). -/
theorem buildManifest_abort (fs : FS) (base pat : String) :
    ∀ (names : List String) (acc : List (String × Entry)),
      (∃ n ∈ names, pyEndsWith n pat = true ∧ fs.isfile (joinPath base n) = true ∧
        (exceptOk (fs.stat (joinPath base n)) = false ∨
         exceptOk (fs.read (joinPath base n)) = false)) →
      exceptOk (buildManifest fs base pat names acc) = false := by
  intro names
  induction names with
  | nil =>
    intro acc h
    obtain ⟨n, hn, _⟩ := h
    cases hn
  | cons name rest ih =>
    intro acc h
    obtain ⟨n, hn, hsuf, hreg, hbad⟩ := h
    by_cases hs : pyEndsWith name pat = true
    · by_cases hr : fs.isfile (joinPath base name) = true
      · cases hst : fs.stat (joinPath base name) with
        | error e => simp [buildManifest, if_pos hs, if_pos hr, hst, exceptOk]
        | ok st =>
          cases hrd : fs.read (joinPath base name) with
          | error e => simp [buildManifest, if_pos hs, if_pos hr, hst, hrd, exceptOk]
          | ok content =>
            simp only [buildManifest, if_pos hs, if_pos hr, hst, hrd]
            apply ih
            rcases List.mem_cons.mp hn with heq | hmem
            · exfalso
              subst heq
              rcases hbad with hb | hb
              · rw [hst] at hb; simp [exceptOk] at hb
              · rw [hrd] at hb; simp [exceptOk] at hb
            · exact ⟨n, hmem, hsuf, hreg, hbad⟩
      · simp only [buildManifest, if_pos hs, if_neg hr]
        apply ih
        rcases List.mem_cons.mp hn with heq | hmem
        · exact absurd (heq ▸ hreg) hr
        · exact ⟨n, hmem, hsuf, hreg, hbad⟩
    · simp only [buildManifest, if_neg hs]
      apply ih
      rcases List.mem_cons.mp hn with heq | hmem
      · exact absurd (heq ▸ hsuf) hs
      · exact ⟨n, hmem, hsuf, hreg, hbad⟩

/-- The scan depends on the filesystem only through the listed names'
file tests, stats and reads. -/
theorem buildManifest_congr (fs1 fs2 : FS) (base pat : String) :
    ∀ (names : List String) (acc : List (String × Entry)),
      (∀ n ∈ names,
        fs1.isfile (joinPath base n) = fs2.isfile (joinPath base n) ∧
        fs1.stat (joinPath base n) = fs2.stat (joinPath base n) ∧
        fs1.read (joinPath base n) = fs2.read (joinPath base n)) →
      buildManifest fs1 base pat names acc = buildManifest fs2 base pat names acc := by
  intro names
  induction names with
  | nil => intro acc _; rfl
  | cons name rest ih =>
    intro acc hagree
    obtain ⟨hif, hst, hrd⟩ := hagree name (List.mem_cons_self _ _)
    have hrest := fun n hn => hagree n (List.mem_cons_of_mem _ hn)
    simp only [buildManifest, ← hif, ← hst, ← hrd]
    by_cases hsuf : pyEndsWith name pat = true
    · simp only [if_pos hsuf]
      by_cases hr : fs1.isfile (joinPath base name) = true
      · simp only [if_pos hr]
        cases fs1.stat (joinPath base name) with
        | error e => rfl
        | ok st =>
          cases fs1.read (joinPath base name) with
          | error e => rfl
          | ok content => exact ih _ hrest
      · simp only [if_neg hr]
        exact ih _ hrest
    · simp only [if_neg hsuf]
      exact ih _ hrest

/-! ## Lemmas about the timestamp format -/

theorem listReplaceAux_nil (pat rep : List Char) (fuel : Nat) :
    listReplaceAux pat rep fuel [] = [] := by
  cases fuel <;> rfl

theorem listReplaceAux_offset (body : List Char) :
    ∀ fuel : Nat, body.length < fuel → '+' ∉ body →
      listReplaceAux plusOffsetChars ['Z'] fuel (body ++ plusOffsetChars) = body ++ ['Z'] := by
  induction body with
  | nil =>
    intro fuel hf _
    cases fuel with
    | zero => cases hf
    | succ f =>
      show listReplaceAux plusOffsetChars ['Z'] (f + 1)
        ('+' :: ['0', '0', ':', '0', '0']) = ['Z']
      simp only [listReplaceAux]
      rw [if_pos (by decide)]
      show 'Z' :: listReplaceAux plusOffsetChars ['Z'] f [] = ['Z']
      rw [listReplaceAux_nil]
  | cons c cs ih =>
    intro fuel hf hplus
    have hc : c ≠ '+' := fun h => hplus (h ▸ List.mem_cons_self _ _)
    have hcs : '+' ∉ cs := fun h => hplus (List.mem_cons_of_mem _ h)
    cases fuel with
    | zero => cases hf
    | succ f =>
      show listReplaceAux plusOffsetChars ['Z'] (f + 1)
        (c :: (cs ++ plusOffsetChars)) = c :: (cs ++ ['Z'])
      simp only [listReplaceAux]
      rw [if_neg ?notpre]
      case notpre =>
        intro hpre
        rw [show plusOffsetChars = '+' :: ['0', '0', ':', '0', '0'] from rfl] at hpre
        simp only [List.isPrefixOf, Bool.and_eq_true, beq_iff_eq] at hpre
        exact hc hpre.1.symm
      rw [ih f (Nat.lt_of_succ_lt_succ (by simpa using hf)) hcs]

theorem decDigitChar_isDigit (k : Nat) : (decDigitChar k).isDigit = true := by
  have hb : k % 10 < 10 := Nat.mod_lt _ (by decide)
  have hall : ∀ j < 10, (Char.ofNat (48 + j)).isDigit = true := by decide
  exact hall (k % 10) hb

theorem decDigitChar_ne_plus (k : Nat) : decDigitChar k ≠ '+' := by
  have hb : k % 10 < 10 := Nat.mod_lt _ (by decide)
  have hall : ∀ j < 10, Char.ofNat (48 + j) ≠ '+' := by decide
  exact hall (k % 10) hb

theorem not_mem_pad4 (c : Char) (hc : ∀ k : Nat, c ≠ decDigitChar k) (n : Nat) :
    c ∉ pad4 n := by
  intro h
  simp only [pad4, List.mem_cons, List.not_mem_nil, or_false] at h
  rcases h with h | h | h | h <;> exact hc _ h

theorem not_mem_pad2 (c : Char) (hc : ∀ k : Nat, c ≠ decDigitChar k) (n : Nat) :
    c ∉ pad2 n := by
  intro h
  simp only [pad2, List.mem_cons, List.not_mem_nil, or_false] at h
  rcases h with h | h <;> exact hc _ h

theorem plus_notMem_isoBasicChars (d : PyDatetime) : '+' ∉ isoBasicChars d := by
  have hd : ∀ k : Nat, ('+' : Char) ≠ decDigitChar k :=
    fun k h => decDigitChar_ne_plus k h.symm
  intro hmem
  simp only [isoBasicChars, List.mem_append, List.mem_cons] at hmem
  rcases hmem with ((((hA | hB1 | hB2) | hC1 | hC2) | hD1 | hD2) | hE1 | hE2) | hF1 | hF2
  · exact not_mem_pad4 _ hd _ hA
  · exact absurd hB1 (by decide)
  · exact not_mem_pad2 _ hd _ hB2
  · exact absurd hC1 (by decide)
  · exact not_mem_pad2 _ hd _ hC2
  · exact absurd hD1 (by decide)
  · exact not_mem_pad2 _ hd _ hD2
  · exact absurd hE1 (by decide)
  · exact not_mem_pad2 _ hd _ hE2
  · exact absurd hF1 (by decide)
  · exact not_mem_pad2 _ hd _ hF2

theorem listReplace_offset (body : List Char) (hp : '+' ∉ body) :
    listReplace plusOffsetChars ['Z'] (body ++ plusOffsetChars) = body ++ ['Z'] := by
  unfold listReplace
  refine listReplaceAux_offset body _ ?_ hp
  simp [plusOffsetChars]

/-- With microseconds zeroed, the script's replace turns the rendered
offset into the literal `Z` suffix. -/
theorem iso8601utcChars_eq (us : Int) :
    iso8601utcChars us =
      isoBasicChars (replaceMicrosecond0 (fromtimestampUTC us)) ++ ['Z'] := by
  unfold iso8601utcChars isoformatChars
  rw [show (replaceMicrosecond0 (fromtimestampUTC us)).microsecond = 0 from rfl]
  rw [if_pos rfl]
  simp only [List.append_nil]
  exact listReplace_offset _ (plus_notMem_isoBasicChars _)

/-- The shape `YYYY-MM-DDTHH:MM:SSZ`: exactly 20 characters, decimal
digits in the date and time positions, the literal separators
`-`, `-`, `T`, `:`, `:` and the final `Z`. -/
def matchesTsPattern (s : String) : Bool :=
  match s.data with
  | [y1, y2, y3, y4, a, m1, m2, b, d1, d2, t, h1, h2, c1, i1, i2, c2, s1, s2, z] =>
    y1.isDigit && y2.isDigit && y3.isDigit && y4.isDigit && (a == '-') &&
    m1.isDigit && m2.isDigit && (b == '-') && d1.isDigit && d2.isDigit &&
    (t == 'T') && h1.isDigit && h2.isDigit && (c1 == ':') && i1.isDigit &&
    i2.isDigit && (c2 == ':') && s1.isDigit && s2.isDigit && (z == 'Z')
  | _ => false

theorem matchesTsPattern_isoBody (d : PyDatetime) :
    matchesTsPattern ⟨isoBasicChars d ++ ['Z']⟩ = true := by
  simp only [matchesTsPattern, isoBasicChars, pad4, pad2, List.cons_append, List.nil_append]
  simp [decDigitChar_isDigit]

/-- Formatting a timestamp gives the same string as formatting that
timestamp floored to a whole second: `replace(microsecond=0)` truncates
(toward minus infinity), it never rounds. -/
theorem iso8601utcChars_trunc (us : Int) :
    iso8601utcChars us = iso8601utcChars (1000000 * us.fdiv 1000000) := by
  have h : ((1000000 : Int) * us.fdiv 1000000).fdiv 1000000 = us.fdiv 1000000 :=
    Int.mul_fdiv_cancel_left _ (by norm_num)
  unfold iso8601utcChars isoformatChars isoBasicChars replaceMicrosecond0 fromtimestampUTC
  rw [h]

/-! ## Lemmas about the hex digest -/

/-- Lowercase hexadecimal digit: `0`-`9` or `a`-`f`. -/
def isLowerHexDigit (c : Char) : Bool :=
  (48 ≤ c.toNat && c.toNat ≤ 57) || (97 ≤ c.toNat && c.toNat ≤ 102)

theorem hexDigitChar_isLowerHex (k : Nat) (hk : k < 16) :
    isLowerHexDigit (hexDigitChar k) = true := by
  have hall : ∀ j < 16, isLowerHexDigit (hexDigitChar j) = true := by decide
  exact hall k hk

theorem mem_wordHexChars (c : Char) (w : Nat) (h : c ∈ wordHexChars w) :
    isLowerHexDigit c = true := by
  simp only [wordHexChars, List.mem_cons, List.not_mem_nil, or_false] at h
  rcases h with h | h | h | h | h | h | h | h <;>
    exact h ▸ hexDigitChar_isLowerHex _ (Nat.mod_lt _ (by decide))

theorem foldl_shaRound_length (st : List Nat) :
    ∀ l : List (Nat × Nat), (l.foldl shaRound st).length = if l.isEmpty then st.length else 8 := by
  intro l
  induction l generalizing st with
  | nil => simp
  | cons x xs ih =>
    simp only [List.foldl, ih (shaRound st x), List.isEmpty_cons]
    cases xs with
    | nil => simp [shaRound]
    | cons y ys => simp

theorem processBlock_length (hs block : List Nat) (h : hs.length = 8) :
    (processBlock hs block).length = 8 := by
  unfold processBlock
  rw [List.length_zipWith, foldl_shaRound_length]
  cases hzip : (shaK.zip (extendW 48 ((chunksOf 4 block).map wordOfBytes).reverse)).isEmpty <;>
    simp [h]

theorem sha256words_length (msg : List Nat) : (sha256words msg).length = 8 := by
  unfold sha256words
  generalize chunksOf 64 (padMsg msg) = blocks
  have : ∀ (bs : List (List Nat)) (hs : List Nat), hs.length = 8 →
      (bs.foldl processBlock hs).length = 8 := by
    intro bs
    induction bs with
    | nil => intro hs h; simpa using h
    | cons b rest ih =>
      intro hs h
      exact ih _ (processBlock_length hs b h)
  exact this blocks shaH0 rfl

theorem sha256hexChars_length (msg : List Nat) : (sha256hexChars msg).length = 64 := by
  unfold sha256hexChars
  have hlen : ∀ ws : List Nat, ((ws.map wordHexChars).flatten).length = 8 * ws.length := by
    intro ws
    induction ws with
    | nil => simp
    | cons w rest ih =>
      simp only [List.map_cons, List.flatten_cons, List.length_append, ih]
      rw [show (wordHexChars w).length = 8 from rfl]
      simp only [List.length_cons]
      omega
  rw [hlen, sha256words_length]

theorem sha256hexChars_lowercase (msg : List Nat) (c : Char)
    (h : c ∈ sha256hexChars msg) : isLowerHexDigit c = true := by
  unfold sha256hexChars at h
  rw [List.mem_flatten] at h
  obtain ⟨l, hl, hc⟩ := h
  rw [List.mem_map] at hl
  obtain ⟨w, _, hw⟩ := hl
  exact mem_wordHexChars c w (hw ▸ hc)

/-! ## Lemmas about sorting and serialization -/

/-- The kernel-reducible comparison instance is the standard one (a
`Decidable` proposition has a unique witness). -/
theorem sortedListing_eq_std (fs : FS) (baseDir : String) :
    sortedListing fs baseDir = List.insertionSort (· ≤ ·) (fs.listdir baseDir) := by
  unfold sortedListing
  congr 1

theorem sortedListing_sorted (fs : FS) (baseDir : String) :
    List.Sorted (· ≤ ·) (sortedListing fs baseDir) := by
  rw [sortedListing_eq_std]
  exact List.sorted_insertionSort _ _

theorem sortedListing_perm (fs : FS) (baseDir : String) :
    (sortedListing fs baseDir).Perm (fs.listdir baseDir) := by
  rw [sortedListing_eq_std]
  exact List.perm_insertionSort _ _

/-- Two listings that are permutations of each other sort to the same
list: Python's `sorted` cancels any listing-order difference. -/
theorem sortedListing_congr (fs1 fs2 : FS) (b1 b2 : String)
    (hperm : (fs1.listdir b1).Perm (fs2.listdir b2)) :
    sortedListing fs1 b1 = sortedListing fs2 b2 :=
  List.eq_of_perm_of_sorted
    ((sortedListing_perm fs1 b1).trans (hperm.trans (sortedListing_perm fs2 b2).symm))
    (sortedListing_sorted fs1 b1) (sortedListing_sorted fs2 b2)

instance : IsTotal (String × List Char) (fun a b => a.1 ≤ b.1) :=
  ⟨fun a b => le_total a.1 b.1⟩

instance : IsTrans (String × List Char) (fun a b => a.1 ≤ b.1) :=
  ⟨fun _ _ _ h1 h2 => le_trans h1 h2⟩

theorem sortPairs_eq_std (pairs : List (String × List Char)) :
    sortPairs pairs = List.insertionSort (fun a b => a.1 ≤ b.1) pairs := by
  unfold sortPairs
  congr 1

theorem sortPairs_sorted (pairs : List (String × List Char)) :
    List.Sorted (fun a b => a.1 ≤ b.1) (sortPairs pairs) := by
  rw [sortPairs_eq_std]
  exact List.sorted_insertionSort _ _

/-- `sort_keys=True` leaves the serialized keys in ascending order. -/
theorem sortPairs_keys_sorted (pairs : List (String × List Char)) :
    List.Sorted (· ≤ ·) ((sortPairs pairs).map Prod.fst) := by
  rw [List.Sorted, List.pairwise_map]
  exact sortPairs_sorted pairs

theorem serDictChars_getLast (openCs closePre keySep itemSep : List Char)
    (pairs : List (String × List Char)) :
    (serDictChars openCs closePre keySep itemSep pairs).getLast? = some '\x7d' := by
  unfold serDictChars
  by_cases h : pairs.isEmpty
  · rw [if_pos h]; rfl
  · rw [if_neg h]
    exact List.getLast?_concat _

/-- Every serialization the script produces ends with the closing
brace, so it never ends with a newline of its own. -/
theorem serManifestChars_getLast (m : List (String × Entry)) (pretty : Bool) :
    (serManifestChars m pretty).getLast? = some '\x7d' := by
  unfold serManifestChars
  cases pretty with
  | false => rw [if_neg (by decide)]; exact serDictChars_getLast _ _ _ _ _
  | true => rw [if_pos (by decide)]; exact serDictChars_getLast _ _ _ _ _

/-- The file content ends with exactly the one newline `f.write("\n")`
appends. -/
theorem outputTextChars_getLast (m : List (String × Entry)) (pretty : Bool) :
    (outputTextChars m pretty).getLast? = some '\n' :=
  List.getLast?_concat _

/-! ## Helpers for the claims -/

theorem exceptErr_exists {x : Except String α} (h : exceptOk x = false) : ∃ e, x = .error e := by
  cases x with
  | ok v => simp [exceptOk] at h
  | error e => exact ⟨e, rfl⟩

/-- Whatever the run produced, the manifest's keys are sorted: the scan
visits names in sorted order and the dict preserves insertion order. -/
theorem keysOfRun_sorted (fs : FS) (baseDir pat : String) :
    List.Sorted (· ≤ ·) (keysOfRun fs baseDir pat) := by
  unfold keysOfRun
  cases hr : runManifest fs baseDir pat with
  | error e => exact List.sorted_nil
  | ok m =>
    exact buildManifest_sorted fs baseDir pat (sortedListing fs baseDir) [] m
      (sortedListing_sorted fs baseDir) List.sorted_nil (by simp) hr

/-- The run is a function of what the script can observe of the
filesystem: the absolute path, the directory test, the set of listed
names, and each listed name's file test, stat and content. -/
theorem runMain_congr (fs1 fs2 : FS) (dirArg : String) (outArg : Option String)
    (pat : String) (pretty : Bool)
    (hab : fs1.abspath dirArg = fs2.abspath dirArg)
    (hdir : fs1.isdir (fs1.abspath dirArg) = fs2.isdir (fs2.abspath dirArg))
    (hls : (fs1.listdir (fs1.abspath dirArg)).Perm (fs2.listdir (fs2.abspath dirArg)))
    (hfile : ∀ n ∈ fs1.listdir (fs1.abspath dirArg),
      fs1.isfile (joinPath (fs1.abspath dirArg) n) = fs2.isfile (joinPath (fs2.abspath dirArg) n) ∧
      fs1.stat (joinPath (fs1.abspath dirArg) n) = fs2.stat (joinPath (fs2.abspath dirArg) n) ∧
      fs1.read (joinPath (fs1.abspath dirArg) n) = fs2.read (joinPath (fs2.abspath dirArg) n)) :
    runMain fs1 dirArg outArg pat pretty = runMain fs2 dirArg outArg pat pretty := by
  rw [← hab] at hdir hls hfile
  have hrun : runManifest fs1 (fs1.abspath dirArg) pat =
      runManifest fs2 (fs1.abspath dirArg) pat := by
    unfold runManifest
    rw [← sortedListing_congr fs1 fs2 (fs1.abspath dirArg) (fs1.abspath dirArg) hls]
    exact buildManifest_congr fs1 fs2 (fs1.abspath dirArg) pat _ []
      (fun n hn => hfile n ((sortedListing_perm fs1 (fs1.abspath dirArg)).subset hn))
  simp only [runMain]
  rw [← hab, ← hdir, ← hrun]

/-! ## The claims -/

/-- C4: inclusion in the manifest is decided by `name.endswith(pattern)`
(source line 45), a literal, case-sensitive, character-for-character
suffix match against the end of the name — not an extension match: it
holds exactly when the filter is a suffix of the name's character list,
"notapck" matches filter "pck", and "foo.PCK" does not match filter
".pck". -/
theorem spec_c4_suffix_match (s p : String) :
    (pyEndsWith s p = true ↔ p.data <:+ s.data) ∧
    pyEndsWith "notapck" "pck" = true ∧
    pyEndsWith "foo.PCK" ".pck" = false ∧
    pyEndsWith "foo.pck" ".pck" = true := by
  refine ⟨?_, by decide, by decide, by decide⟩
  unfold pyEndsWith
  exact List.isSuffixOf_iff_suffix

/-- C9: a `--out` argument equal to the empty string is falsy, so
`args.out or default` (source line 41) falls back to the default
`<dir>/packs_manifest.json` under the absolute source directory, and
the whole run behaves exactly as if `--out` had been omitted. -/
theorem spec_c9_empty_out (fs : FS) (dirArg pat : String) (pretty : Bool) :
    resolveOut (fs.abspath dirArg) (some "") =
      joinPath (fs.abspath dirArg) "packs_manifest.json" ∧
    runMain fs dirArg (some "") pat pretty = runMain fs dirArg none pat pretty := by
  exact ⟨rfl, rfl⟩

/-- C6: when `--dir` does not resolve to a directory, the run reports
`[ERR] Not a directory: <path>` on stderr, exits with status 1, and
writes nothing. -/
theorem spec_c6_not_a_directory (fs : FS) (dirArg : String) (outArg : Option String)
    (pat : String) (pretty : Bool)
    (h : fs.isdir (fs.abspath dirArg) = false) :
    runMain fs dirArg outArg pat pretty =
      { exitCode := 1, errLines := ["[ERR] Not a directory: " ++ fs.abspath dirArg],
        outLines := [], writes := [] } := by
  simp [runMain, h]

/-- C3: every entry's `mtime` string has the shape
`YYYY-MM-DDTHH:MM:SSZ` — ending in the literal `Z`, never in `+00:00` —
and renders the modification time truncated (floored) to whole seconds,
never rounded; `datetime` represents exactly the years 1..9999, which
the hypotheses record. The entry built by the scan stores
`iso8601_utc(st.st_mtime)` verbatim. -/
theorem spec_c3_mtime_format (us : Int) (st : FileStat) (content : List Nat)
    (hy1 : 1 ≤ (fromtimestampUTC us).year) (hy2 : (fromtimestampUTC us).year ≤ 9999) :
    matchesTsPattern (iso8601_utc us) = true ∧
    (iso8601_utc us).data.getLast? = some 'Z' ∧
    '+' ∉ (iso8601_utc us).data ∧
    ¬ plusOffsetChars <:+: (iso8601_utc us).data ∧
    iso8601_utc us = iso8601_utc (1000000 * us.fdiv 1000000) ∧
    (mkEntry st content).mtime = iso8601_utc st.st_mtime_us := by
  have hdata : (iso8601_utc us).data =
      isoBasicChars (replaceMicrosecond0 (fromtimestampUTC us)) ++ ['Z'] :=
    iso8601utcChars_eq us
  have hplus : '+' ∉ (iso8601_utc us).data := by
    rw [hdata]
    intro hmem
    rcases List.mem_append.mp hmem with hmem | hmem
    · exact plus_notMem_isoBasicChars _ hmem
    · exact absurd (List.mem_singleton.mp hmem) (by decide)
  refine ⟨?_, ?_, hplus, ?_, ?_, rfl⟩
  · have : iso8601_utc us =
        ⟨isoBasicChars (replaceMicrosecond0 (fromtimestampUTC us)) ++ ['Z']⟩ :=
      congrArg String.mk (iso8601utcChars_eq us)
    rw [this]
    exact matchesTsPattern_isoBody _
  · rw [hdata]
    exact List.getLast?_concat _
  · intro hinf
    exact hplus (hinf.subset (by decide))
  · exact congrArg String.mk (iso8601utcChars_trunc us)

/-- C5 (amended): the serialized manifest is written followed by exactly
one trailing newline (the serialization itself always ends with the
closing brace); with the pretty flag the output uses a fixed 2-space
indent per level and lexicographically sorted keys; without the pretty
flag `json.dump` uses Python's default separators `", "` and `": "` and
the dict's insertion order — which is NOT the most compact valid
serialization of the mapping. -/
theorem spec_c5_output_shape (m : List (String × Entry)) (pretty : Bool) :
    outputTextChars m pretty = serManifestChars m pretty ++ ['\n'] ∧
    (outputTextChars m pretty).getLast? = some '\n' ∧
    (serManifestChars m pretty).getLast? = some '\x7d' ∧
    List.Sorted (· ≤ ·)
      ((sortPairs (m.map fun p => (p.1, serEntryPrettyChars p.2))).map Prod.fst) := by
  exact ⟨rfl, outputTextChars_getLast m pretty, serManifestChars_getLast m pretty,
    sortPairs_keys_sorted _⟩

/-- A manifest entry with short field values, for concrete evaluation. -/
def exampleEntry : Entry :=
  { version := "ab", size := 4, mtime := "2025-01-01T00:00:00Z", sha256 := "ab" }

/-- C5 counterexample: on a one-entry mapping the non-pretty output of
`json.dump` (default separators `", "`, `": "`) differs from — and is
strictly longer than — the most compact valid serialization, which uses
separators `","` and `":"`; so the non-pretty output is not the most
compact valid serialization of the mapping. -/
theorem spec_c5_not_most_compact :
    serManifestChars [("a.pck", exampleEntry)] false ≠
      specMostCompactChars [("a.pck", exampleEntry)] ∧
    (specMostCompactChars [("a.pck", exampleEntry)]).length <
      (serManifestChars [("a.pck", exampleEntry)] false).length := by
  decide

/-- C1: when every candidate file can be statted and read, the run
succeeds and the produced manifest's keys are exactly the listed names
that end with the suffix filter and are regular files (in sorted
order); a name is a key iff it is listed, matches the suffix and is a
regular file — so non-regular entries such as a subdirectory named
`sub.pck` are skipped without raising an error. -/
theorem spec_c1_manifest_keys (fs : FS) (baseDir pat : String)
    (hnd : (fs.listdir baseDir).Nodup)
    (hok : ∀ n ∈ fs.listdir baseDir, pyEndsWith n pat = true →
      fs.isfile (joinPath baseDir n) = true →
      exceptOk (fs.stat (joinPath baseDir n)) = true ∧
      exceptOk (fs.read (joinPath baseDir n)) = true) :
    exceptOk (runManifest fs baseDir pat) = true ∧
    keysOfRun fs baseDir pat = (sortedListing fs baseDir).filter (scanCond fs baseDir pat) ∧
    ∀ k : String, k ∈ keysOfRun fs baseDir pat ↔
      (k ∈ fs.listdir baseDir ∧ pyEndsWith k pat = true ∧
        fs.isfile (joinPath baseDir k) = true) := by
  have hperm := sortedListing_perm fs baseDir
  have hnd' : (sortedListing fs baseDir).Nodup := hperm.nodup_iff.mpr hnd
  have hok' : ∀ n ∈ sortedListing fs baseDir, pyEndsWith n pat = true →
      fs.isfile (joinPath baseDir n) = true →
      exceptOk (fs.stat (joinPath baseDir n)) = true ∧
      exceptOk (fs.read (joinPath baseDir n)) = true :=
    fun n hn => hok n (hperm.subset hn)
  obtain ⟨m, hm, hkeys⟩ := buildManifest_ok_keys fs baseDir pat
    (sortedListing fs baseDir) [] hok' (by simp) hnd'
  have hkeysrun : keysOfRun fs baseDir pat =
      (sortedListing fs baseDir).filter (scanCond fs baseDir pat) := by
    unfold keysOfRun
    rw [show runManifest fs baseDir pat = .ok m from hm]
    simpa using hkeys
  refine ⟨?_, hkeysrun, ?_⟩
  · rw [show runManifest fs baseDir pat = .ok m from hm]
    rfl
  · intro k
    rw [hkeysrun, List.mem_filter]
    constructor
    · rintro ⟨hks, hcond⟩
      rw [scanCond, Bool.and_eq_true] at hcond
      exact ⟨hperm.subset hks, hcond.1, hcond.2⟩
    · rintro ⟨h1, h2, h3⟩
      refine ⟨hperm.mem_iff.mpr h1, ?_⟩
      rw [scanCond, Bool.and_eq_true]
      exact ⟨h2, h3⟩

/-- C2: every entry of a produced manifest records a successful stat and
full read of its file: `version` and `sha256` are the same string, both
are the SHA-256 digest of the file's full byte content computed by
streaming it in 1 MiB chunks, the digest is 64 lowercase hexadecimal
characters, and `size` is the file's byte length at scan time (given
that stat and read observed the same file state). -/
theorem spec_c2_entry_fields (fs : FS) (baseDir pat k : String) (e : Entry)
    (m : List (String × Entry))
    (hrun : runManifest fs baseDir pat = .ok m)
    (hmem : (k, e) ∈ m)
    (hsize : ∀ p st c, fs.stat p = .ok st → fs.read p = .ok c → st.st_size = c.length) :
    ∃ content, fs.read (joinPath baseDir k) = .ok content ∧
      e.size = content.length ∧
      e.version = e.sha256 ∧
      e.version = sha256_file content ∧
      sha256_file content = sha256hexStr content ∧
      (e.sha256).data.length = 64 ∧
      ∀ c ∈ (e.sha256).data, isLowerHexDigit c = true := by
  rcases buildManifest_origin fs baseDir pat (sortedListing fs baseDir) [] m hrun
      (k, e) hmem with hin | hgood
  · cases hin
  obtain ⟨st, content, hst, hrd, he0⟩ := hgood
  have he : e = mkEntry st content := he0
  have hsha : e.sha256 = sha256_file content := by rw [he]; rfl
  have hchars : (e.sha256).data = sha256hexChars content := by
    rw [hsha, sha256_file_eq_whole]
    rfl
  refine ⟨content, hrd, ?_, ?_, ?_, sha256_file_eq_whole content, ?_, ?_⟩
  · rw [he]
    exact hsize _ st content hst hrd
  · rw [he]; rfl
  · rw [he]; rfl
  · rw [hchars]
    exact sha256hexChars_length content
  · rw [hchars]
    exact fun c hc => sha256hexChars_lowercase content c hc

/-- C7: if any candidate file's stat or read fails, the scan aborts
with that error: the run exits unsuccessfully, writes no file at all —
so no partial manifest is produced and a pre-existing file at the
output path is left untouched — and there is no per-file
skip-and-continue. -/
theorem spec_c7_read_error_aborts (fs : FS) (dirArg : String) (outArg : Option String)
    (pat : String) (pretty : Bool)
    (hdir : fs.isdir (fs.abspath dirArg) = true)
    (hbad : ∃ n ∈ fs.listdir (fs.abspath dirArg),
      pyEndsWith n pat = true ∧ fs.isfile (joinPath (fs.abspath dirArg) n) = true ∧
      (exceptOk (fs.stat (joinPath (fs.abspath dirArg) n)) = false ∨
       exceptOk (fs.read (joinPath (fs.abspath dirArg) n)) = false)) :
    exceptOk (runManifest fs (fs.abspath dirArg) pat) = false ∧
    (runMain fs dirArg outArg pat pretty).writes = [] ∧
    (runMain fs dirArg outArg pat pretty).exitCode = 1 := by
  have habort : exceptOk (runManifest fs (fs.abspath dirArg) pat) = false := by
    unfold runManifest
    apply buildManifest_abort
    obtain ⟨n, hn, h1, h2, h3⟩ := hbad
    exact ⟨n, (sortedListing_perm fs (fs.abspath dirArg)).mem_iff.mpr hn, h1, h2, h3⟩
  obtain ⟨e, he⟩ := exceptErr_exists habort
  refine ⟨habort, ?_, ?_⟩ <;>
    simp [runMain, hdir, he]

/-- C8: with `--pretty`, two runs over filesystems that agree on the
resolved directory, its listing (up to listing order) and every listed
file's type, stat and content produce byte-identical results — in
particular byte-identical output files; the sort of the listing makes
the listing order unobservable. -/
theorem spec_c8_pretty_deterministic (fs1 fs2 : FS) (dirArg : String)
    (outArg : Option String) (pat : String)
    (hab : fs1.abspath dirArg = fs2.abspath dirArg)
    (hdir : fs1.isdir (fs1.abspath dirArg) = fs2.isdir (fs2.abspath dirArg))
    (hls : (fs1.listdir (fs1.abspath dirArg)).Perm (fs2.listdir (fs2.abspath dirArg)))
    (hfile : ∀ n ∈ fs1.listdir (fs1.abspath dirArg),
      fs1.isfile (joinPath (fs1.abspath dirArg) n) = fs2.isfile (joinPath (fs2.abspath dirArg) n) ∧
      fs1.stat (joinPath (fs1.abspath dirArg) n) = fs2.stat (joinPath (fs2.abspath dirArg) n) ∧
      fs1.read (joinPath (fs1.abspath dirArg) n) = fs2.read (joinPath (fs2.abspath dirArg) n)) :
    runMain fs1 dirArg outArg pat true = runMain fs2 dirArg outArg pat true :=
  runMain_congr fs1 fs2 dirArg outArg pat true hab hdir hls hfile

/-- C10: the keys of the produced manifest are in lexicographically
sorted order even without `--pretty` (names are visited in sorted order
and the dict and `json.dump` preserve insertion order), and the
non-pretty output is likewise byte-stable across runs over an
unmodified directory. -/
theorem spec_c10_compact_keys_sorted (fs1 fs2 : FS) (dirArg : String)
    (outArg : Option String) (pat : String)
    (hab : fs1.abspath dirArg = fs2.abspath dirArg)
    (hdir : fs1.isdir (fs1.abspath dirArg) = fs2.isdir (fs2.abspath dirArg))
    (hls : (fs1.listdir (fs1.abspath dirArg)).Perm (fs2.listdir (fs2.abspath dirArg)))
    (hfile : ∀ n ∈ fs1.listdir (fs1.abspath dirArg),
      fs1.isfile (joinPath (fs1.abspath dirArg) n) = fs2.isfile (joinPath (fs2.abspath dirArg) n) ∧
      fs1.stat (joinPath (fs1.abspath dirArg) n) = fs2.stat (joinPath (fs2.abspath dirArg) n) ∧
      fs1.read (joinPath (fs1.abspath dirArg) n) = fs2.read (joinPath (fs2.abspath dirArg) n)) :
    List.Sorted (· ≤ ·) (keysOfRun fs1 (fs1.abspath dirArg) pat) ∧
    runMain fs1 dirArg outArg pat false = runMain fs2 dirArg outArg pat false :=
  ⟨keysOfRun_sorted fs1 (fs1.abspath dirArg) pat,
    runMain_congr fs1 fs2 dirArg outArg pat false hab hdir hls hfile⟩

/-! ## Concrete filesystems for evaluating the claims -/

/-- A directory `/d` holding regular files `a.pck` (bytes of "test"),
`z.pck` (bytes of "abc"), `b.txt`, and a subdirectory named `sub.pck`
(listed, suffix-matching, but not a regular file). -/
def exFS : FS :=
  { abspath := fun p => p
    isdir := fun p => p = "/d"
    listdir := fun p => if p = "/d" then ["b.txt", "sub.pck", "z.pck", "a.pck"] else []
    isfile := fun p => p = "/d/a.pck" ∨ p = "/d/z.pck" ∨ p = "/d/b.txt"
    stat := fun p =>
      if p = "/d/a.pck" then .ok { st_size := 4, st_mtime_us := 1699999999700000 }
      else if p = "/d/z.pck" then .ok { st_size := 3, st_mtime_us := 1700000000000000 }
      else .error "stat: No such file or directory"
    read := fun p =>
      if p = "/d/a.pck" then .ok [116, 101, 115, 116]
      else if p = "/d/z.pck" then .ok [97, 98, 99]
      else .error "read: No such file or directory" }

/-- On `exFS`, a successful stat and read of the same path observe the
same file: the reported size is the content's byte length. -/
theorem exFS_scan_consistent : ∀ p st c, exFS.stat p = .ok st → exFS.read p = .ok c →
    st.st_size = c.length := by
  intro p st c hst hrd
  by_cases h1 : p = "/d/a.pck"
  · subst h1
    have hst' : ({ st_size := 4, st_mtime_us := 1699999999700000 } : FileStat) = st :=
      Except.ok.inj hst
    have hrd' : ([116, 101, 115, 116] : List Nat) = c := Except.ok.inj hrd
    rw [← hst', ← hrd']
    rfl
  · by_cases h2 : p = "/d/z.pck"
    · subst h2
      have hst' : ({ st_size := 3, st_mtime_us := 1700000000000000 } : FileStat) = st :=
        Except.ok.inj hst
      have hrd' : ([97, 98, 99] : List Nat) = c := Except.ok.inj hrd
      rw [← hst', ← hrd']
      rfl
    · exfalso
      simp [exFS, h1, h2] at hst

/-- The manifest the scan of `exFS` produces. -/
def c2Manifest : List (String × Entry) := (runManifest exFS "/d" ".pck").toOption.getD []

/-- Its entry for `a.pck`. -/
def c2Entry : Entry := (c2Manifest.getD 0 ("", exampleEntry)).2

/-- A filesystem whose `--dir` argument is not a directory. -/
def exFSNoDir : FS :=
  { abspath := fun p => p
    isdir := fun _ => false
    listdir := fun _ => []
    isfile := fun _ => false
    stat := fun _ => .error "stat: Not a directory"
    read := fun _ => .error "read: Not a directory" }

/-- A directory in which the candidate `a.pck` exists but reading it
fails (permission denied) while `b.pck` is fine. -/
def exFSFail : FS :=
  { abspath := fun p => p
    isdir := fun p => p = "/d"
    listdir := fun p => if p = "/d" then ["a.pck", "b.pck"] else []
    isfile := fun p => p = "/d/a.pck" ∨ p = "/d/b.pck"
    stat := fun p =>
      if p = "/d/b.pck" then .ok { st_size := 3, st_mtime_us := 0 }
      else .ok { st_size := 4, st_mtime_us := 0 }
    read := fun p =>
      if p = "/d/b.pck" then .ok [97, 98, 99]
      else .error "read: Permission denied" }

/-- One of two filesystems with the same files whose listings differ
only in order. -/
def exFSA : FS :=
  { abspath := fun p => p
    isdir := fun p => p = "/d"
    listdir := fun p => if p = "/d" then ["b.pck", "a.pck"] else []
    isfile := fun p => p = "/d/a.pck" ∨ p = "/d/b.pck"
    stat := fun p =>
      if p = "/d/a.pck" then .ok { st_size := 4, st_mtime_us := 1700000000000000 }
      else if p = "/d/b.pck" then .ok { st_size := 3, st_mtime_us := 1700000001000000 }
      else .error "stat: No such file or directory"
    read := fun p =>
      if p = "/d/a.pck" then .ok [116, 101, 115, 116]
      else if p = "/d/b.pck" then .ok [97, 98, 99]
      else .error "read: No such file or directory" }

/-- The same filesystem with the listing in the other order. -/
def exFSB : FS :=
  { exFSA with listdir := fun p => if p = "/d" then ["a.pck", "b.pck"] else [] }

/-! ## Witnesses -/

theorem spec_c1_manifest_keys_w :
    exceptOk (runManifest exFS "/d" ".pck") = true ∧
    keysOfRun exFS "/d" ".pck" = (sortedListing exFS "/d").filter (scanCond exFS "/d" ".pck") ∧
    ∀ k : String, k ∈ keysOfRun exFS "/d" ".pck" ↔
      (k ∈ exFS.listdir "/d" ∧ pyEndsWith k ".pck" = true ∧
        exFS.isfile (joinPath "/d" k) = true) :=
  spec_c1_manifest_keys exFS "/d" ".pck" (by decide) (by decide)

set_option maxRecDepth 100000 in
theorem spec_c2_entry_fields_w :
    ∃ content, exFS.read (joinPath "/d" "a.pck") = .ok content ∧
      c2Entry.size = content.length ∧
      c2Entry.version = c2Entry.sha256 ∧
      c2Entry.version = sha256_file content ∧
      sha256_file content = sha256hexStr content ∧
      (c2Entry.sha256).data.length = 64 ∧
      ∀ c ∈ (c2Entry.sha256).data, isLowerHexDigit c = true :=
  spec_c2_entry_fields exFS "/d" ".pck" "a.pck" c2Entry c2Manifest rfl (by decide)
    exFS_scan_consistent

theorem spec_c3_mtime_format_w :
    matchesTsPattern (iso8601_utc 1699999999700000) = true ∧
    (iso8601_utc 1699999999700000).data.getLast? = some 'Z' ∧
    '+' ∉ (iso8601_utc 1699999999700000).data ∧
    ¬ plusOffsetChars <:+: (iso8601_utc 1699999999700000).data ∧
    iso8601_utc 1699999999700000 =
      iso8601_utc (1000000 * (1699999999700000 : Int).fdiv 1000000) ∧
    (mkEntry { st_size := 4, st_mtime_us := 1699999999700000 } [116, 101, 115, 116]).mtime =
      iso8601_utc ({ st_size := 4, st_mtime_us := 1699999999700000 } : FileStat).st_mtime_us :=
  spec_c3_mtime_format 1699999999700000 _ _ (by decide) (by decide)

theorem spec_c6_not_a_directory_w :
    runMain exFSNoDir "/nope" none ".pck" false =
      { exitCode := 1, errLines := ["[ERR] Not a directory: " ++ exFSNoDir.abspath "/nope"],
        outLines := [], writes := [] } :=
  spec_c6_not_a_directory exFSNoDir "/nope" none ".pck" false (by decide)

theorem spec_c7_read_error_aborts_w :
    exceptOk (runManifest exFSFail (exFSFail.abspath "/d") ".pck") = false ∧
    (runMain exFSFail "/d" none ".pck" false).writes = [] ∧
    (runMain exFSFail "/d" none ".pck" false).exitCode = 1 :=
  spec_c7_read_error_aborts exFSFail "/d" none ".pck" false (by decide) (by decide)

theorem spec_c8_pretty_deterministic_w :
    runMain exFSA "/d" none ".pck" true = runMain exFSB "/d" none ".pck" true :=
  spec_c8_pretty_deterministic exFSA exFSB "/d" none ".pck" rfl rfl
    (List.Perm.swap "a.pck" "b.pck" []) (by
    intro n hn
    rw [show exFSA.listdir (exFSA.abspath "/d") = ["b.pck", "a.pck"] from rfl] at hn
    rcases List.mem_cons.mp hn with rfl | hn
    · exact ⟨rfl, rfl, rfl⟩
    rcases List.mem_cons.mp hn with rfl | hn
    · exact ⟨rfl, rfl, rfl⟩
    cases hn)

theorem spec_c10_compact_keys_sorted_w :
    List.Sorted (· ≤ ·) (keysOfRun exFSA (exFSA.abspath "/d") ".pck") ∧
    runMain exFSA "/d" none ".pck" false = runMain exFSB "/d" none ".pck" false :=
  spec_c10_compact_keys_sorted exFSA exFSB "/d" none ".pck" rfl rfl
    (List.Perm.swap "a.pck" "b.pck" []) (by
    intro n hn
    rw [show exFSA.listdir (exFSA.abspath "/d") = ["b.pck", "a.pck"] from rfl] at hn
    rcases List.mem_cons.mp hn with rfl | hn
    · exact ⟨rfl, rfl, rfl⟩
    rcases List.mem_cons.mp hn with rfl | hn
    · exact ⟨rfl, rfl, rfl⟩
    cases hn)
